import Mathlib
set_option maxHeartbeats 1000000
/-!
Verification of the template-substitution engine of the PostGen batch
document generator.  The program scans PowerPoint slide XML for `{{KEY}}`
placeholder tokens, auto-maps keys to CSV column names, substitutes each
data row into a fresh copy of the template, and aggregates the per-row
archives into one outer archive.

Strings are modelled as `List Char`.  CSV rows and column mappings are
association lists, mirroring the insertion-ordered string-keyed objects of
the source.
-/

/-- Whitespace characters removed by string trimming (`String.prototype.trim`). -/
def isWS (c : Char) : Bool :=
  c = ' ' || c = '\t' || c = '\n' || c = '\r' || c = '\x0b' || c = '\x0c'

/-- Trim surrounding whitespace from a string, as `value.trim()` does. -/
def trim (s : List Char) : List Char :=
  ((s.dropWhile isWS).reverse.dropWhile isWS).reverse

/-- Line terminators, which the `.` of the regex `/{{(.*?)}}/g` does not match. -/
def isLineTerm (c : Char) : Bool :=
  c = '\n' || c = '\r' || c.toNat = 0x2028 || c.toNat = 0x2029

/-- Scan for the lazily-first closing `}}`, accumulating the captured
content.  Returns `none` when a line terminator or the end of input is
reached first, mirroring the fact that `.` in `/{{(.*?)}}/g` cannot match
a line break.  On success returns the captured content (the characters
before the first `}}`) and the text after the `}}`. -/
def findClose (acc : List Char) : List Char → Option (List Char × List Char)
  | [] => none
  | c :: rest =>
      if c = '}' ∧ rest.head? = some '}' then some (acc.reverse, rest.tail)
      else if isLineTerm c then none
      else findClose (c :: acc) rest

/-- Locate the leftmost match of `/{{(.*?)}}/g`: returns the text before
the match, the captured content between the braces, and the text after the
match.  When a `{{` has no reachable `}}` before a line terminator the scan
advances one character, exactly as the JavaScript regex engine does. -/
def splitFirstToken : List Char → Option (List Char × List Char × List Char)
  | [] => none
  | c :: rest =>
      if c = '{' ∧ rest.head? = some '{' then
        match findClose [] rest.tail with
        | some (content, after) => some ([], content, after)
        | none =>
            match splitFirstToken rest with
            | some (p, co, a) => some (c :: p, co, a)
            | none => none
      else
        match splitFirstToken rest with
        | some (p, co, a) => some (c :: p, co, a)
        | none => none

/-- The full text of a token match: `{{` ++ content ++ `}}`. -/
def matchString (content : List Char) : List Char :=
  '{' :: '{' :: (content ++ ['}', '}'])

/-- Fuelled worker for `replaceTokens`; the fuel only encodes termination
(every match consumes at least four characters). -/
def replaceTokensF (f : List Char → List Char) : Nat → List Char → List Char
  | 0, s => s
  | fuel + 1, s =>
      match splitFirstToken s with
      | none => s
      | some (p, c, a) => p ++ f c ++ replaceTokensF f fuel a

/-- Apply `content.replace(/{{(.*?)}}/g, f)`: every non-overlapping match
is replaced by `f` applied to its captured content (the JavaScript
callback receives the captured group and returns the replacement text). -/
def replaceTokens (f : List Char → List Char) (s : List Char) : List Char :=
  replaceTokensF f s.length s

/-- Fuelled worker for `extractTokens`. -/
def extractTokensF : Nat → List Char → List (List Char)
  | 0, _ => []
  | fuel + 1, s =>
      match splitFirstToken s with
      | none => []
      | some (_, c, a) => c :: extractTokensF fuel a

/-- The captured contents of all non-overlapping `{{...}}` matches, in
order, as produced by `slideContent.match(regex)` before key cleanup. -/
def extractTokens (s : List Char) : List (List Char) :=
  extractTokensF s.length s

/-- Fuelled worker for `segments`. -/
def segmentsF : Nat → List Char → List (List Char)
  | 0, s => [s]
  | fuel + 1, s =>
      match splitFirstToken s with
      | none => [s]
      | some (p, _, a) => p :: segmentsF fuel a

/-- The non-token text between consecutive matches (including the text
before the first match and after the last). -/
def segments (s : List Char) : List (List Char) :=
  segmentsF s.length s

/-- Stitch segments and (transformed) token texts back together. -/
def interleave : List (List Char) → List (List Char) → List Char
  | [], _ => []
  | s :: _, [] => s
  | s :: ss, t :: ts => s ++ t ++ interleave ss ts

/-- Remove every non-overlapping occurrence of `{{` or `}}`, scanning left
to right, as `m.replace(/{{|}}/g, '')` does on a match string. -/
def stripBraces : List Char → List Char
  | [] => []
  | [c] => [c]
  | c :: d :: rest =>
      if (c = '{' ∧ d = '{') ∨ (c = '}' ∧ d = '}') then stripBraces rest
      else c :: stripBraces (d :: rest)

/-- Keep the first occurrence of each element, in order, as
`Array.from(new Set(xs))` does. -/
def uniqueFirstAux (seen : List (List Char)) : List (List Char) → List (List Char)
  | [] => []
  | x :: xs =>
      if x ∈ seen then uniqueFirstAux seen xs
      else x :: uniqueFirstAux (x :: seen) xs

/-- `Array.from(new Set(xs))`: deduplicate keeping first occurrences. -/
def uniqueFirst (l : List (List Char)) : List (List Char) :=
  uniqueFirstAux [] l

/-- The key derived from one regex match by `extractKeysFromPPTX`:
`m.replace(/{{|}}/g, '').trim()` applied to the match text `{{content}}`. -/
def keyOf (content : List Char) : List Char :=
  trim (stripBraces (matchString content))

/-- `extractKeysFromPPTX`'s key cleanup on a slide's text: match all
tokens, strip braces, trim and deduplicate. -/
def extractKeys (s : List Char) : List (List Char) :=
  uniqueFirst ((extractTokens s).map keyOf)

/-- An in-memory document archive: association list from part path to the
part's text content, in insertion order (`JSZip` files object). -/
abbrev Archive := List (List Char × List Char)

/-- Association-list lookup: `obj[key]`, `none` when the key is absent. -/
def assocLookup {β : Type} : List (List Char × β) → List Char → Option β
  | [], _ => none
  | e :: rest, k => if e.1 = k then some e.2 else assocLookup rest k

/-- A parsed CSV row: ordered association list from column name to string
value (PapaParse row object). -/
abbrev CsvRow := List (List Char × List Char)

/-- A column mapping: placeholder key to either a CSV column name or the
explicit unmapped marker `null` (modelled `none`). -/
abbrev ColumnMapping := List (List Char × Option (List Char))

/-- The path of the designated primary text part. -/
def slide1Path : List Char := "ppt/slides/slide1.xml".toList

/-- The body of `extractKeysFromPPTX` before its catch-all handler: a
missing `ppt/slides/slide1.xml` part throws. -/
def extractKeysCore (ar : Archive) : Except (List Char) (List (List Char)) :=
  match assocLookup ar slide1Path with
  | none => Except.error "Could not find slide1.xml in the PowerPoint file.".toList
  | some content => Except.ok (extractKeys content)

/-- `extractKeysFromPPTX`: the whole body is wrapped in try/catch, and the
catch branch returns an empty key list. -/
def extractKeysFromPPTX (ar : Archive) : List (List Char) :=
  match extractKeysCore ar with
  | Except.ok keys => keys
  | Except.error _ => []

/-- `value.replace(/c/g, rep)`: global single-character replacement. -/
def replaceChar (c : Char) (rep : List Char) : List Char → List Char
  | [] => []
  | x :: xs => (if x = c then rep else [x]) ++ replaceChar c rep xs

/-- The XML escaping chain of `generateBatch`, amp first:
`.replace(/&/g,'&amp;').replace(/</g,'&lt;').replace(/>/g,'&gt;')
.replace(/"/g,'&quot;').replace(/'/g,'&apos;')`. -/
def escapeXml (v : List Char) : List Char :=
  replaceChar '\'' "&apos;".toList
    (replaceChar '"' "&quot;".toList
      (replaceChar '>' "&gt;".toList
        (replaceChar '<' "&lt;".toList
          (replaceChar '&' "&amp;".toList v))))

/-- Specification-level single-pass escaping: each of the five
markup-sensitive characters becomes its entity, with the amp-first order
guaranteeing no entity is double-escaped. -/
def encodeChar (c : Char) : List Char :=
  if c = '&' then "&amp;".toList
  else if c = '<' then "&lt;".toList
  else if c = '>' then "&gt;".toList
  else if c = '"' then "&quot;".toList
  else if c = '\'' then "&apos;".toList
  else [c]

/-- Single-pass entity encoding of a whole string, character by character. -/
def encodeAll : List Char → List Char
  | [] => []
  | c :: rest => encodeChar c ++ encodeAll rest

/-- Recognise one of the five entities right after a `&`, returning the
decoded character and the remaining input. -/
def decodeEntity : List Char → Option (Char × List Char)
  | 'a' :: 'm' :: 'p' :: ';' :: rest => some ('&', rest)
  | 'l' :: 't' :: ';' :: rest => some ('<', rest)
  | 'g' :: 't' :: ';' :: rest => some ('>', rest)
  | 'q' :: 'u' :: 'o' :: 't' :: ';' :: rest => some ('"', rest)
  | 'a' :: 'p' :: 'o' :: 's' :: ';' :: rest => some ('\'', rest)
  | _ => none

/-- Fuelled worker for the standard markup-entity decoder. -/
def unescapeF : Nat → List Char → List Char
  | 0, s => s
  | fuel + 1, s =>
      match s with
      | [] => []
      | c :: rest =>
          if c = '&' then
            match decodeEntity rest with
            | some (d, rest2) => d :: unescapeF fuel rest2
            | none => c :: unescapeF fuel rest
          else c :: unescapeF fuel rest

/-- A standard markup-entity decoder: maps `&amp; &lt; &gt; &quot; &apos;`
back to the characters they denote, leaving everything else unchanged. -/
def unescapeEntities (s : List Char) : List Char :=
  unescapeF s.length s

/-- JavaScript `v || dflt` on strings: empty string is falsy. -/
def jsOr (v dflt : List Char) : List Char :=
  if v = [] then dflt else v

/-- The replacement callback of `generateBatch`: trim the captured key,
look up the mapped CSV column, and if the column name is truthy and the
row has a value for it substitute the escaped value (empty string
fallback), otherwise return the original match unchanged. -/
def substToken (m : ColumnMapping) (row : CsvRow) (content : List Char) : List Char :=
  match assocLookup m (trim content) with
  | some (some col) =>
      if col ≠ [] then
        match assocLookup row col with
        | some v => escapeXml (jsOr v [])
        | none => matchString content
      else matchString content
  | _ => matchString content

/-- One slide part's transformation in `generateBatch`:
`content.replace(/{{(.*?)}}/g, callback)`. -/
def substituteContent (m : ColumnMapping) (row : CsvRow) (s : List Char) : List Char :=
  replaceTokens (substToken m row) s

/-- The per-token rule exactly as the specification words it: trim the
captured key; when the mapping assigns the key an actual (nonempty) column
name and the row has a value for that column, replace the occurrence by
the row's value (empty string when falsy) with the five markup-sensitive
characters escaped, ampersand first (single-pass entity encoding); when
the key is unmapped or the row lacks the column, leave the original token.
The empty string is not a column name: the engine treats a key assigned
the empty string as unmapped. -/
def claimTokenRule (m : ColumnMapping) (row : CsvRow) (content : List Char) : List Char :=
  match assocLookup m (trim content) with
  | some (some col) =>
      if col ≠ [] then
        match assocLookup row col with
        | some v => encodeAll (jsOr v [])
        | none => matchString content
      else matchString content
  | _ => matchString content

/-- Whether a placeholder key survives substitution against a row: the key
is unmapped (absent, `null`, or the falsy empty string) or the mapped
column is absent from the row. -/
def keptKey (m : ColumnMapping) (row : CsvRow) (k : List Char) : Bool :=
  match assocLookup m k with
  | some (some col) =>
      if col ≠ [] then (assocLookup row col).isNone else true
  | _ => true

/-- Whether a token occurrence is left in place by the callback. -/
def tokenKept (m : ColumnMapping) (row : CsvRow) (content : List Char) : Bool :=
  keptKey m row (trim content)

/-- Lowercasing for the case-insensitive header comparison. -/
def lowerStr (s : List Char) : List Char :=
  s.map Char.toLower

/-- The auto-matching step of `analyzeFiles`: for each template key, find
the first header whose trimmed, lowercased text equals the lowercased key;
`newMapping[key] = matchedHeader || null`. -/
def autoMap (keys columns : List (List Char)) : ColumnMapping :=
  keys.map (fun key =>
    (key,
      match columns.find? (fun h => lowerStr (trim h) == lowerStr key) with
      | some matchedHeader => if matchedHeader = [] then none else some matchedHeader
      | none => none))

/-- `zip.file(name, content)`: replace the entry in place when the name
exists, append it otherwise. -/
def zipPut {β : Type} (z : List (List Char × β)) (name : List Char) (content : β) :
    List (List Char × β) :=
  if (assocLookup z name).isSome then
    z.map (fun e => if e.1 = name then (e.1, content) else e)
  else z ++ [(name, content)]

/-- Whether a part path names a slide text part:
`path.startsWith("ppt/slides/slide") && path.endsWith(".xml")`. -/
def isSlidePath (p : List Char) : Bool :=
  "ppt/slides/slide".toList.isPrefixOf p && ".xml".toList.isSuffixOf p

/-- One row's archive in `generateBatch`: decode the template fresh,
rewrite every slide text part through the substitution callback, and write
each transformed part back. -/
def processRow (tpl : Archive) (m : ColumnMapping) (row : CsvRow) : Archive :=
  ((tpl.map Prod.fst).filter isSlidePath).foldl
    (fun z sp =>
      match assocLookup z sp with
      | some content => zipPut z sp (substituteContent m row content)
      | none => z)
    tpl

/-- ASCII letters and digits, the characters kept by the filename
sanitizer `replace(/[^a-z0-9]/gi, '_')`. -/
def isAlnumAscii (c : Char) : Bool :=
  ('a' ≤ c && c ≤ 'z') || ('A' ≤ c && c ≤ 'Z') || ('0' ≤ c && c ≤ '9')

/-- Replace every non-alphanumeric character by an underscore. -/
def sanitize (s : List Char) : List Char :=
  s.map (fun c => if isAlnumAscii c then c else '_')

/-- Fuelled decimal rendering worker (most significant digit first). -/
def natDigitsAux : Nat → Nat → List Char
  | 0, _ => []
  | fuel + 1, n =>
      if n = 0 then []
      else natDigitsAux fuel (n / 10) ++ [Char.ofNat (48 + n % 10)]

/-- Decimal rendering of a natural number, as `${n}` renders it. -/
def natStr (n : Nat) : List Char :=
  if n = 0 then ['0'] else natDigitsAux n n

/-- Numeric value of a decimal digit character. -/
def digitVal (c : Char) : Nat :=
  c.toNat - 48

/-- Parse a most-significant-first decimal digit string back to a number. -/
def parseNat (l : List Char) : Nat :=
  l.foldl (fun a c => 10 * a + digitVal c) 0

/-- The derived output filename of row `i` (0-based):
``slide_${i+1}_${Object.values(row)[0]?.replace(/[^a-z0-9]/gi,'_') || 'generated'}.pptx``. -/
def fileName (i : Nat) (row : CsvRow) : List Char :=
  "slide_".toList ++ natStr (i + 1) ++ "_".toList ++
    (match row.head? with
     | some e => jsOr (sanitize e.2) "generated".toList
     | none => "generated".toList) ++ ".pptx".toList

/-- The outer archive: filenames mapped to per-row archives. -/
abbrev MasterZip := List (List Char × Archive)

/-- Observable events of the generation loop, in execution order. -/
inductive Ev where
  | added : List Char → Archive → Ev
  | progress : Nat → Nat → Ev
deriving DecidableEq

/-- The loop body of `generateBatch`: for each row, produce the row's
archive, add it to the master archive, then invoke `onProgress(i+1, total)`. -/
def batchTrace (tpl : Archive) (m : ColumnMapping) :
    List CsvRow → Nat → Nat → List Ev
  | [], _, _ => []
  | row :: rest, i, total =>
      Ev.added (fileName i row) (processRow tpl m row) ::
        Ev.progress (i + 1) total :: batchTrace tpl m rest (i + 1) total

/-- The full event trace of one `generateBatch` call. -/
def generateTrace (tpl : Archive) (m : ColumnMapping) (data : List CsvRow) : List Ev :=
  batchTrace tpl m data 0 data.length

/-- Project the progress calls out of a trace. -/
def progressOf : Ev → Option (Nat × Nat)
  | Ev.progress a b => some (a, b)
  | _ => none

/-- The master-archive accumulation of `generateBatch`. -/
def generateMasterAux (tpl : Archive) (m : ColumnMapping) :
    List CsvRow → Nat → MasterZip → MasterZip
  | [], _, mz => mz
  | row :: rest, i, mz =>
      generateMasterAux tpl m rest (i + 1)
        (zipPut mz (fileName i row) (processRow tpl m row))

/-- The outer archive produced by `generateBatch`. -/
def generateMaster (tpl : Archive) (m : ColumnMapping) (data : List CsvRow) : MasterZip :=
  generateMasterAux tpl m data 0 []

/-- The zero-row guard of `analyzeFiles`: an empty CSV throws
`"O arquivo CSV está vazio."` before any generation state is set up. -/
def analyzeFiles (data : List CsvRow) : Except (List Char) (List CsvRow) :=
  if data.length = 0 then Except.error "O arquivo CSV esta vazio.".toList
  else Except.ok data

/-- The guard of `handleGenerate`: with no parsed rows the handler returns
without calling `generateBatch`, so no outer archive is produced. -/
def handleGenerate (tpl : Archive) (csvData : List CsvRow) (m : ColumnMapping) :
    Option MasterZip :=
  if csvData.length = 0 then none
  else some (generateMaster tpl m csvData)

/-- Does the text contain the two-character sequence `a b`? -/
def hasPair (a b : Char) : List Char → Bool
  | [] => false
  | c :: rest => (c = a && rest.head? = some b) || hasPair a b rest

/-- A `{{` followed by this text can never find a closer, whatever comes
after the text: a line terminator occurs before any `}}`. -/
def blocked : List Char → Bool
  | [] => false
  | c :: rest =>
      if c = '}' ∧ rest.head? = some '}' then false
      else if isLineTerm c then true
      else blocked rest

/-- Every `{{` inside the text is blocked: no match can start in it even
considering arbitrary following text. -/
def safeSeg : List Char → Bool
  | [] => true
  | c :: rest =>
      if c = '{' ∧ rest.head? = some '{' then blocked rest.tail && safeSeg rest
      else safeSeg rest

/-- No brace characters at all. -/
def bracesFree (s : List Char) : Bool :=
  s.all (fun c => !(c = '{' || c = '}'))

/-- Every value of the row is brace-free. -/
def rowValuesBraceFree (row : CsvRow) : Bool :=
  row.all (fun e => bracesFree e.2)

/-- No captured token content of the text contains `{{`. -/
def contentsDoubleBraceFree (s : List Char) : Bool :=
  (extractTokens s).all (fun c => !hasPair '{' '{' c)

/-- Reconstruction: a successful `findClose` splits its input around the
first `}}`. -/
theorem findClose_eq_append (acc l co af) (h : findClose acc l = some (co, af)) :
    ∃ mid, co = acc.reverse ++ mid ∧ l = mid ++ '}' :: '}' :: af := by
  induction l generalizing acc with
  | nil => simp [findClose] at h
  | cons c rest ih =>
      rw [findClose] at h
      split at h
      · rename_i hc
        obtain ⟨hc1, hc2⟩ := hc
        cases rest with
        | nil => simp at hc2
        | cons d rest' =>
            simp only [Option.some.injEq, Prod.mk.injEq, List.tail_cons] at h
            simp only [List.head?_cons, Option.some.injEq] at hc2
            obtain ⟨h2, h3⟩ := h
            exact ⟨[], by simp [h2], by simp [hc1, hc2, h3]⟩
      · split at h
        · exact absurd h (by simp)
        · obtain ⟨mid, hmid, hl⟩ := ih (c :: acc) h
          exact ⟨c :: mid, by simpa using hmid, by simp [hl]⟩

/-- Reconstruction: a successful `splitFirstToken` splits its input as
before-text ++ `{{` ++ content ++ `}}` ++ after-text. -/
theorem splitFirstToken_eq_append (s p co a) (h : splitFirstToken s = some (p, co, a)) :
    s = p ++ matchString co ++ a := by
  induction s generalizing p co a with
  | nil => simp [splitFirstToken] at h
  | cons c rest ih =>
      rw [splitFirstToken] at h
      split at h
      · rename_i hc
        obtain ⟨hc1, hc2⟩ := hc
        cases hfc : findClose [] rest.tail with
        | none =>
            rw [hfc] at h
            cases hs : splitFirstToken rest with
            | none => rw [hs] at h; exact absurd h (by simp)
            | some r =>
                obtain ⟨p', co', a'⟩ := r
                rw [hs] at h
                simp only [Option.some.injEq, Prod.mk.injEq] at h
                obtain ⟨h2, h3, h4⟩ := h
                subst h2; subst h3; subst h4
                have hr := ih p' co' a' hs
                simp [hr]
        | some r =>
            obtain ⟨co', a'⟩ := r
            rw [hfc] at h
            simp only [Option.some.injEq, Prod.mk.injEq] at h
            obtain ⟨h2, h3, h4⟩ := h
            subst h2; subst h3; subst h4
            obtain ⟨mid, hmid, hl⟩ := findClose_eq_append [] rest.tail co' a' hfc
            simp only [List.reverse_nil, List.nil_append] at hmid
            subst hmid
            cases rest with
            | nil => simp at hc2
            | cons d rest' =>
                simp only [List.head?_cons, Option.some.injEq] at hc2
                simp only [List.tail_cons] at hl
                subst hc1; subst hc2
                simp [matchString, hl]
      · cases hs : splitFirstToken rest with
        | none => rw [hs] at h; exact absurd h (by simp)
        | some r =>
            obtain ⟨p', co', a'⟩ := r
            rw [hs] at h
            simp only [Option.some.injEq, Prod.mk.injEq] at h
            obtain ⟨h2, h3, h4⟩ := h
            subst h2; subst h3; subst h4
            have hr := ih p' co' a' hs
            simp [hr]

/-- The text after a token is strictly shorter than the input. -/
theorem splitFirstToken_after_length (s p co a)
    (h : splitFirstToken s = some (p, co, a)) : a.length < s.length := by
  have := splitFirstToken_eq_append s p co a h
  subst this
  simp [matchString]
  omega

theorem replaceTokensF_fuel (f) (f1 f2 : Nat) (s : List Char)
    (h1 : s.length ≤ f1) (h2 : s.length ≤ f2) :
    replaceTokensF f f1 s = replaceTokensF f f2 s := by
  induction f1 generalizing f2 s with
  | zero =>
      have : s = [] := by
        cases s with
        | nil => rfl
        | cons c r => simp at h1
      subst this
      cases f2 with
      | zero => rfl
      | succ n => simp [replaceTokensF, splitFirstToken]
  | succ n ih =>
      cases f2 with
      | zero =>
          have : s = [] := by
            cases s with
            | nil => rfl
            | cons c r => simp at h2
          subst this
          simp [replaceTokensF, splitFirstToken]
      | succ m =>
          cases hs : splitFirstToken s with
          | none => simp only [replaceTokensF, hs]
          | some r =>
              obtain ⟨p, c, a⟩ := r
              have hlt := splitFirstToken_after_length s p c a hs
              simp only [replaceTokensF, hs]
              rw [ih m a (by omega) (by omega)]

theorem extractTokensF_fuel (f1 f2 : Nat) (s : List Char)
    (h1 : s.length ≤ f1) (h2 : s.length ≤ f2) :
    extractTokensF f1 s = extractTokensF f2 s := by
  induction f1 generalizing f2 s with
  | zero =>
      have : s = [] := by
        cases s with
        | nil => rfl
        | cons c r => simp at h1
      subst this
      cases f2 with
      | zero => rfl
      | succ n => simp [extractTokensF, splitFirstToken]
  | succ n ih =>
      cases f2 with
      | zero =>
          have : s = [] := by
            cases s with
            | nil => rfl
            | cons c r => simp at h2
          subst this
          simp [extractTokensF, splitFirstToken]
      | succ m =>
          cases hs : splitFirstToken s with
          | none => simp only [extractTokensF, hs]
          | some r =>
              obtain ⟨p, c, a⟩ := r
              have hlt := splitFirstToken_after_length s p c a hs
              simp only [extractTokensF, hs]
              rw [ih m a (by omega) (by omega)]

theorem segmentsF_fuel (f1 f2 : Nat) (s : List Char)
    (h1 : s.length ≤ f1) (h2 : s.length ≤ f2) :
    segmentsF f1 s = segmentsF f2 s := by
  induction f1 generalizing f2 s with
  | zero =>
      have : s = [] := by
        cases s with
        | nil => rfl
        | cons c r => simp at h1
      subst this
      cases f2 with
      | zero => rfl
      | succ n => simp [segmentsF, splitFirstToken]
  | succ n ih =>
      cases f2 with
      | zero =>
          have : s = [] := by
            cases s with
            | nil => rfl
            | cons c r => simp at h2
          subst this
          simp [segmentsF, splitFirstToken]
      | succ m =>
          cases hs : splitFirstToken s with
          | none => simp only [segmentsF, hs]
          | some r =>
              obtain ⟨p, c, a⟩ := r
              have hlt := splitFirstToken_after_length s p c a hs
              simp only [segmentsF, hs]
              rw [ih m a (by omega) (by omega)]

/-- Unfolding: no match leaves the text unchanged. -/
theorem replaceTokens_none (f) (s : List Char) (h : splitFirstToken s = none) :
    replaceTokens f s = s := by
  unfold replaceTokens
  cases s with
  | nil => rfl
  | cons c r => simp [replaceTokensF, h]

/-- Unfolding: a match is replaced and scanning continues after it. -/
theorem replaceTokens_some (f) (s p c a : List Char)
    (h : splitFirstToken s = some (p, c, a)) :
    replaceTokens f s = p ++ f c ++ replaceTokens f a := by
  have hlt := splitFirstToken_after_length s p c a h
  unfold replaceTokens
  cases hs : s with
  | nil => rw [hs] at h; simp [splitFirstToken] at h
  | cons x r =>
      rw [← hs]
      have hlen : s.length = (s.length - 1) + 1 := by
        subst hs; simp
      rw [hlen]
      simp only [replaceTokensF, h]
      rw [replaceTokensF_fuel f (s.length - 1) a.length a (by omega) (by omega)]

/-- Unfolding: no match yields no tokens. -/
theorem extractTokens_none (s : List Char) (h : splitFirstToken s = none) :
    extractTokens s = [] := by
  unfold extractTokens
  cases s with
  | nil => rfl
  | cons c r => simp [extractTokensF, h]

/-- Unfolding: a match contributes its content and scanning continues. -/
theorem extractTokens_some (s p c a : List Char)
    (h : splitFirstToken s = some (p, c, a)) :
    extractTokens s = c :: extractTokens a := by
  have hlt := splitFirstToken_after_length s p c a h
  unfold extractTokens
  cases hs : s with
  | nil => rw [hs] at h; simp [splitFirstToken] at h
  | cons x r =>
      rw [← hs]
      have hlen : s.length = (s.length - 1) + 1 := by
        subst hs; simp
      rw [hlen]
      simp only [extractTokensF, h]
      rw [extractTokensF_fuel (s.length - 1) a.length a (by omega) (by omega)]

/-- Unfolding: no match gives a single segment. -/
theorem segments_none (s : List Char) (h : splitFirstToken s = none) :
    segments s = [s] := by
  unfold segments
  cases s with
  | nil => rfl
  | cons c r => simp [segmentsF, h]

/-- Unfolding: a match contributes the text before it as a segment. -/
theorem segments_some (s p c a : List Char)
    (h : splitFirstToken s = some (p, c, a)) :
    segments s = p :: segments a := by
  have hlt := splitFirstToken_after_length s p c a h
  unfold segments
  cases hs : s with
  | nil => rw [hs] at h; simp [splitFirstToken] at h
  | cons x r =>
      rw [← hs]
      have hlen : s.length = (s.length - 1) + 1 := by
        subst hs; simp
      rw [hlen]
      simp only [segmentsF, h]
      rw [segmentsF_fuel (s.length - 1) a.length a (by omega) (by omega)]

theorem replaceChar_append (c : Char) (rep a b : List Char) :
    replaceChar c rep (a ++ b) = replaceChar c rep a ++ replaceChar c rep b := by
  induction a with
  | nil => rfl
  | cons x xs ih => simp [replaceChar, ih]

theorem escapeXml_append (a b : List Char) :
    escapeXml (a ++ b) = escapeXml a ++ escapeXml b := by
  simp [escapeXml, replaceChar_append]

/-- The sequential five-step escaping encodes one character exactly as the
single-pass entity encoding does: the amp-first order never re-escapes an
entity introduced by an earlier step. -/
theorem escapeXml_single (x : Char) : escapeXml [x] = encodeChar x := by
  by_cases h1 : x = '&'
  · subst h1; decide
  by_cases h2 : x = '<'
  · subst h2; decide
  by_cases h3 : x = '>'
  · subst h3; decide
  by_cases h4 : x = '"'
  · subst h4; decide
  by_cases h5 : x = '\''
  · subst h5; decide
  simp [escapeXml, replaceChar, encodeChar, h1, h2, h3, h4, h5]

theorem escapeXml_cons (x : Char) (v : List Char) :
    escapeXml (x :: v) = encodeChar x ++ escapeXml v := by
  have h : x :: v = [x] ++ v := rfl
  rw [h, escapeXml_append, escapeXml_single]

theorem escapeXml_eq_encodeAll (v : List Char) : escapeXml v = encodeAll v := by
  induction v with
  | nil => rfl
  | cons x v ih => rw [escapeXml_cons, ih]; rfl

theorem decodeEntity_length (s : List Char) (d : Char) (r : List Char)
    (h : decodeEntity s = some (d, r)) : r.length ≤ s.length := by
  unfold decodeEntity at h
  split at h <;> simp_all <;> omega

theorem unescapeF_fuel (f1 f2 : Nat) (s : List Char)
    (h1 : s.length ≤ f1) (h2 : s.length ≤ f2) :
    unescapeF f1 s = unescapeF f2 s := by
  induction f1 generalizing f2 s with
  | zero =>
      have hs : s = [] := by
        cases s with
        | nil => rfl
        | cons c r => simp at h1
      subst hs
      cases f2 with
      | zero => rfl
      | succ n => simp [unescapeF]
  | succ n ih =>
      cases f2 with
      | zero =>
          have hs : s = [] := by
            cases s with
            | nil => rfl
            | cons c r => simp at h2
          subst hs
          simp [unescapeF]
      | succ k =>
          cases s with
          | nil => simp [unescapeF]
          | cons c rest =>
              simp only [unescapeF]
              by_cases hc : c = '&'
              · simp only [hc, if_true]
                cases hd : decodeEntity rest with
                | none =>
                    simp only [List.length_cons] at h1 h2
                    rw [ih k rest (by omega) (by omega)]
                | some r =>
                    obtain ⟨d, rest2⟩ := r
                    have hlen := decodeEntity_length rest d rest2 hd
                    simp only [List.length_cons] at h1 h2
                    show d :: unescapeF n rest2 = d :: unescapeF k rest2
                    rw [ih k rest2 (by omega) (by omega)]
              · simp only [hc, if_false]
                simp only [List.length_cons] at h1 h2
                rw [ih k rest (by omega) (by omega)]

/-- One-step unfolding of the entity decoder. -/
theorem unescape_cons (c : Char) (rest : List Char) :
    unescapeEntities (c :: rest) =
      if c = '&' then
        match decodeEntity rest with
        | some (d, rest2) => d :: unescapeEntities rest2
        | none => c :: unescapeEntities rest
      else c :: unescapeEntities rest := by
  unfold unescapeEntities
  simp only [List.length_cons, unescapeF]
  by_cases hc : c = '&'
  · simp only [hc, if_true]
    cases hd : decodeEntity rest with
    | none => rfl
    | some r =>
        obtain ⟨d, rest2⟩ := r
        have hlen := decodeEntity_length rest d rest2 hd
        show d :: unescapeF rest.length rest2 = d :: unescapeEntities rest2
        unfold unescapeEntities
        rw [unescapeF_fuel rest.length rest2.length rest2 (by omega) (by omega)]
  · simp only [hc, if_false]

/-- C6under-the-hood: decoding undoes the encoding of a single character
placed before arbitrary following text. -/
theorem unescape_encode_cons (x : Char) (t : List Char) :
    unescapeEntities (encodeChar x ++ t) = x :: unescapeEntities t := by
  by_cases h1 : x = '&'
  · subst h1
    have e : encodeChar '&' = ['&', 'a', 'm', 'p', ';'] := by decide
    rw [e]
    show unescapeEntities ('&' :: ('a' :: 'm' :: 'p' :: ';' :: t)) = _
    rw [unescape_cons]
    rfl
  by_cases h2 : x = '<'
  · subst h2
    have e : encodeChar '<' = ['&', 'l', 't', ';'] := by decide
    rw [e]
    show unescapeEntities ('&' :: ('l' :: 't' :: ';' :: t)) = _
    rw [unescape_cons]
    rfl
  by_cases h3 : x = '>'
  · subst h3
    have e : encodeChar '>' = ['&', 'g', 't', ';'] := by decide
    rw [e]
    show unescapeEntities ('&' :: ('g' :: 't' :: ';' :: t)) = _
    rw [unescape_cons]
    rfl
  by_cases h4 : x = '"'
  · subst h4
    have e : encodeChar '"' = ['&', 'q', 'u', 'o', 't', ';'] := by decide
    rw [e]
    show unescapeEntities ('&' :: ('q' :: 'u' :: 'o' :: 't' :: ';' :: t)) = _
    rw [unescape_cons]
    rfl
  by_cases h5 : x = '\''
  · subst h5
    have e : encodeChar '\'' = ['&', 'a', 'p', 'o', 's', ';'] := by decide
    rw [e]
    show unescapeEntities ('&' :: ('a' :: 'p' :: 'o' :: 's' :: ';' :: t)) = _
    rw [unescape_cons]
    rfl
  have e : encodeChar x = [x] := by simp [encodeChar, h1, h2, h3, h4, h5]
  rw [e]
  show unescapeEntities (x :: t) = _
  rw [unescape_cons]
  simp [h1]

/-- C6: for every string value, applying the engine's escaping
(`&`, `<`, `>`, `"`, `'` escaped sequentially, ampersand first) and then a
standard markup-entity decoder reproduces the original value exactly. -/
theorem c6_escape_roundtrip (v : List Char) :
    unescapeEntities (escapeXml v) = v := by
  induction v with
  | nil => rfl
  | cons x v ih => rw [escapeXml_cons, unescape_encode_cons, ih]

/-- The engine's callback implements exactly the claim's per-token rule:
the only difference is the formulation of the escaping, settled by
`escapeXml_eq_encodeAll`. -/
theorem substToken_eq_claimRule (m : ColumnMapping) (row : CsvRow) (content : List Char) :
    substToken m row content = claimTokenRule m row content := by
  unfold substToken claimTokenRule
  cases hm : assocLookup m (trim content) with
  | none => rfl
  | some o =>
      cases o with
      | none => rfl
      | some col =>
          by_cases hc : col = []
          · simp [hc]
          · simp only [hc, ne_eq, not_false_eq_true, if_true]
            cases hr : assocLookup row col with
            | none => rfl
            | some v =>
                show escapeXml (jsOr v []) = encodeAll (jsOr v [])
                exact escapeXml_eq_encodeAll _

/-- C1: for every slide text part content, every data row and every
mapping, `generateBatch`'s substitution decomposes the text into the
non-overlapping `{{...}}` occurrences and the literal text around them,
and rewrites each occurrence independently by the claimed rule: trim the
captured key; if the mapping assigns the key a (nonempty, cf. C9) column
name and the row has a value for that column, replace the occurrence by
the row's value (empty string when falsy) with the five markup-sensitive
characters escaped ampersand-first (single-pass entity encoding);
otherwise leave the original token unchanged. -/
theorem c1_token_substitution (m : ColumnMapping) (row : CsvRow) (s : List Char) :
    substituteContent m row s =
      interleave (segments s) ((extractTokens s).map (claimTokenRule m row)) := by
  suffices H : ∀ (n : Nat) (s : List Char), s.length ≤ n →
      substituteContent m row s =
        interleave (segments s) ((extractTokens s).map (claimTokenRule m row)) from
    H s.length s le_rfl
  intro n
  induction n with
  | zero =>
      intro s hs
      have hnil : s = [] := by
        cases s with
        | nil => rfl
        | cons c r => simp at hs
      subst hnil
      rfl
  | succ n ih =>
      intro s hs
      cases hsp : splitFirstToken s with
      | none =>
          rw [substituteContent, replaceTokens_none _ s hsp, segments_none s hsp,
            extractTokens_none s hsp]
          rfl
      | some r =>
          obtain ⟨p, c, a⟩ := r
          have hlen := splitFirstToken_after_length s p c a hsp
          rw [substituteContent, replaceTokens_some _ s p c a hsp, segments_some s p c a hsp,
            extractTokens_some s p c a hsp]
          simp only [List.map_cons, interleave]
          rw [substToken_eq_claimRule]
          have := ih a (by omega)
          rw [substituteContent] at this
          rw [this]

/-- C3: when the data source yields zero rows, the analysis step fails
fatally (`"O arquivo CSV esta vazio."` is thrown before any generation
state is set up) and the generation handler returns without calling
`generateBatch`, so no output archive — not even an empty outer archive —
is produced. -/
theorem c3_zero_rows (tpl : Archive) (m : ColumnMapping) (data : List CsvRow)
    (h : data.length = 0) :
    analyzeFiles data = Except.error "O arquivo CSV esta vazio.".toList ∧
      handleGenerate tpl data m = none := by
  constructor
  · simp [analyzeFiles, h]
  · simp [handleGenerate, h]

/-- Witness for C3 at the concrete empty data source. -/
theorem c3_zero_rows_witness :
    analyzeFiles [] = Except.error "O arquivo CSV esta vazio.".toList ∧
      handleGenerate [] [] [] = none :=
  c3_zero_rows [] [] [] rfl

/-- Association lookup in a list built by mapping a function over keys. -/
theorem assocLookup_map_keys {β : Type} (f : List Char → β) (keys : List (List Char))
    (k : List Char) (hk : k ∈ keys) :
    assocLookup (keys.map (fun key => (key, f key))) k = some (f k) := by
  induction keys with
  | nil => simp at hk
  | cons x xs ih =>
      simp only [List.map_cons, assocLookup]
      by_cases hx : x = k
      · simp [hx]
      · have : k ∈ xs := by
          rcases List.mem_cons.mp hk with h | h
          · exact absurd h.symm hx
          · exact h
        simp [hx, ih this]

/-- C5, counterexample to the claim as stated: with key set `{""}` and
column sequence `[""]`, the first (and only) column matches the key under
the trimmed case-insensitive comparison, yet auto-mapping assigns the
unmapped marker `null` rather than that column, because
`matchedHeader || null` sends the falsy empty-string column to `null`. -/
theorem c5_counterexample :
    List.find? (fun h => lowerStr (trim h) == lowerStr (trim ([] : List Char)))
        [([] : List Char)] = some [] ∧
      assocLookup (autoMap [[]] [[]]) [] = some none ∧
      assocLookup (autoMap [[]] [[]]) [] ≠ some (some []) := by
  decide

/-- C5 as amended: for every list of placeholder keys (which the scanner
produces already trimmed, so each key equals its own trim) and every
ordered column sequence, auto-mapping assigns to each key the first column
whose trimmed value equals the key's trimmed value case-insensitively —
except that a matching empty-string column is sent to the unmapped marker
(`matchedHeader || null`) — and `null` when no column matches.  The
mapping is a pure function of its inputs, and matching is exact, not
partial (witnessed below by column `"Name "` matching key `"name"` while
column `"Name2"` does not). -/
theorem c5_auto_mapping (keys columns : List (List Char))
    (hk : ∀ k ∈ keys, trim k = k) :
    ∀ k ∈ keys,
      assocLookup (autoMap keys columns) k =
        some (match columns.find? (fun h => lowerStr (trim h) == lowerStr (trim k)) with
              | some matchedHeader => if matchedHeader = [] then none else some matchedHeader
              | none => none) := by
  intro k hmem
  unfold autoMap
  rw [assocLookup_map_keys _ keys k hmem, hk k hmem]

/-- Witness for C5 (amended) at the claim's own examples. -/
theorem c5_auto_mapping_witness :
    assocLookup (autoMap ["name".toList] ["Name ".toList, "Name2".toList]) "name".toList =
        some (some "Name ".toList) ∧
      assocLookup (autoMap ["name".toList] ["Name2".toList]) "name".toList = some none := by
  constructor
  · rw [c5_auto_mapping ["name".toList] ["Name ".toList, "Name2".toList] (by decide)
      "name".toList (by decide)]
    decide
  · rw [c5_auto_mapping ["name".toList] ["Name2".toList] (by decide)
      "name".toList (by decide)]
    decide

/-- C7: if the designated primary text part `ppt/slides/slide1.xml` is
absent from the template archive, placeholder extraction returns an empty
key set rather than raising: the internal throw is caught by the
function's catch-all handler, which returns `[]`. -/
theorem c7_missing_primary_part (ar : Archive) (h : assocLookup ar slide1Path = none) :
    extractKeysFromPPTX ar = [] ∧
      extractKeysCore ar =
        Except.error "Could not find slide1.xml in the PowerPoint file.".toList := by
  constructor
  · unfold extractKeysFromPPTX extractKeysCore
    rw [h]
  · unfold extractKeysCore
    rw [h]

/-- Witness for C7 at a concrete archive without the primary part. -/
theorem c7_missing_primary_part_witness :
    extractKeysFromPPTX [("ppt/slides/slide2.xml".toList, "{{K}}".toList)] = [] ∧
      extractKeysCore [("ppt/slides/slide2.xml".toList, "{{K}}".toList)] =
        Except.error "Could not find slide1.xml in the PowerPoint file.".toList :=
  c7_missing_primary_part [("ppt/slides/slide2.xml".toList, "{{K}}".toList)] (by decide)

/-- C9: a key whose mapping entry is the empty string is treated as
unmapped — the `csvColumnName &&` truthiness test fails on `""` — so the
callback returns the original `{{key}}` token verbatim, even when the row
has a field named by the empty string with a defined value. -/
theorem c9_empty_string_column (m : ColumnMapping) (row : CsvRow) (content v : List Char)
    (h1 : assocLookup m (trim content) = some (some []))
    (h2 : assocLookup row [] = some v) :
    substToken m row content = matchString content := by
  unfold substToken
  rw [h1]
  simp

/-- Witness for C9 at a concrete mapping and row. -/
theorem c9_empty_string_column_witness :
    substToken [("K".toList, some [])] [([], "val".toList)] "K".toList =
      matchString "K".toList :=
  c9_empty_string_column [("K".toList, some [])] [([], "val".toList)] "K".toList
    "val".toList (by decide) (by decide)

/-- Full characterisation of a successful `findClose`: the input splits
around the lazily-first `}}`, and the scanned middle contains no line
terminator, contains no `}}`, and does not end in `}`. -/
theorem findClose_mid_props (acc l co af) (h : findClose acc l = some (co, af)) :
    ∃ mid, co = acc.reverse ++ mid ∧ l = mid ++ '}' :: '}' :: af ∧
      (∀ ch ∈ mid, isLineTerm ch = false) ∧ hasPair '}' '}' mid = false ∧
      mid.getLast? ≠ some '}' := by
  induction l generalizing acc with
  | nil => simp [findClose] at h
  | cons c rest ih =>
      rw [findClose] at h
      split at h
      · rename_i hc
        obtain ⟨hc1, hc2⟩ := hc
        cases rest with
        | nil => simp at hc2
        | cons d rest2 =>
            simp only [Option.some.injEq, Prod.mk.injEq, List.tail_cons] at h
            simp only [List.head?_cons, Option.some.injEq] at hc2
            obtain ⟨h2, h3⟩ := h
            exact ⟨[], by simp [h2], by simp [hc1, hc2, h3], by simp, by simp [hasPair],
              by simp⟩
      · rename_i hnc
        split at h
        · exact absurd h (by simp)
        · rename_i hlt
          obtain ⟨mid, hmid, hl, hnl, hhp, hlast⟩ := ih (c :: acc) h
          simp only [List.reverse_cons] at hmid
          refine ⟨c :: mid, by simp [hmid], by simp [hl], ?_, ?_, ?_⟩
          · intro ch hch
            rcases List.mem_cons.mp hch with rfl | hch2
            · simpa using hlt
            · exact hnl ch hch2
          · rw [hasPair]
            simp only [hhp, Bool.or_false, Bool.and_eq_false_iff]
            by_cases hcb : c = '}'
            · right
              cases hm : mid with
              | nil =>
                  subst hm
                  simp only [List.nil_append] at hl
                  exact absurd ⟨hcb, by simp [hl]⟩ hnc
              | cons x ms =>
                  have hx : x ≠ '}' := by
                    intro hxe
                    subst hm
                    exact hnc ⟨hcb, by simp [hl, hxe]⟩
                  simp [hx]
            · left
              simp [hcb]
          · cases hm : mid with
            | nil =>
                subst hm
                simp only [List.nil_append] at hl
                have : c ≠ '}' := fun hce => hnc ⟨hce, by simp [hl]⟩
                simp [this]
            | cons x ms =>
                subst hm
                rw [List.getLast?_cons_cons]
                exact hlast

/-- Captured contents of `splitFirstToken`: no line terminator, no `}}`,
and no trailing `}`. -/
theorem splitFirstToken_content_props (s p co a)
    (h : splitFirstToken s = some (p, co, a)) :
    (∀ ch ∈ co, isLineTerm ch = false) ∧ hasPair '}' '}' co = false ∧
      co.getLast? ≠ some '}' := by
  induction s generalizing p co a with
  | nil => simp [splitFirstToken] at h
  | cons c rest ih =>
      rw [splitFirstToken] at h
      split at h
      · cases hfc : findClose [] rest.tail with
        | none =>
            rw [hfc] at h
            cases hs : splitFirstToken rest with
            | none => rw [hs] at h; exact absurd h (by simp)
            | some r =>
                obtain ⟨p', co', a'⟩ := r
                rw [hs] at h
                simp only [Option.some.injEq, Prod.mk.injEq] at h
                obtain ⟨h2, h3, h4⟩ := h
                subst h3; subst h4
                exact ih p' co' a' hs
        | some r =>
            obtain ⟨co', a'⟩ := r
            rw [hfc] at h
            simp only [Option.some.injEq, Prod.mk.injEq] at h
            obtain ⟨h2, h3, h4⟩ := h
            subst h3; subst h4
            obtain ⟨mid, hmid, hl, hnl, hhp, hlast⟩ :=
              findClose_mid_props [] rest.tail co' a' hfc
            simp only [List.reverse_nil, List.nil_append] at hmid
            subst hmid
            exact ⟨hnl, hhp, hlast⟩
      · cases hs : splitFirstToken rest with
        | none => rw [hs] at h; exact absurd h (by simp)
        | some r =>
            obtain ⟨p', co', a'⟩ := r
            rw [hs] at h
            simp only [Option.some.injEq, Prod.mk.injEq] at h
            obtain ⟨h2, h3, h4⟩ := h
            subst h3; subst h4
            exact ih p' co' a' hs

/-- C10: the tokenization shared by extraction and substitution cannot
capture text spanning a line break — no extracted token content contains a
line terminator — and a text without any discoverable token (such as one
whose only `{{...}}` candidate has a newline between the braces) passes
through substitution completely unchanged and reports no keys. -/
theorem c10_newline_tokens :
    (∀ (s c : List Char), c ∈ extractTokens s → ∀ ch ∈ c, isLineTerm ch = false) ∧
      (∀ (m : ColumnMapping) (row : CsvRow) (s : List Char), extractTokens s = [] →
        substituteContent m row s = s ∧ extractKeys s = []) := by
  constructor
  · suffices H : ∀ (n : Nat) (s : List Char), s.length ≤ n →
        ∀ c ∈ extractTokens s, ∀ ch ∈ c, isLineTerm ch = false from
      fun s c hc => H s.length s le_rfl c hc
    intro n
    induction n with
    | zero =>
        intro s hs c hc
        have hnil : s = [] := by
          cases s with
          | nil => rfl
          | cons x r => simp at hs
        subst hnil
        simp [extractTokens, extractTokensF] at hc
    | succ n ih =>
        intro s hs c hc
        cases hsp : splitFirstToken s with
        | none =>
            rw [extractTokens_none s hsp] at hc
            simp at hc
        | some r =>
            obtain ⟨p, c', a⟩ := r
            have hlen := splitFirstToken_after_length s p c' a hsp
            rw [extractTokens_some s p c' a hsp] at hc
            rcases List.mem_cons.mp hc with rfl | hc2
            · exact (splitFirstToken_content_props s p c a hsp).1
            · exact ih a (by omega) c hc2
  · intro m row s hext
    have hsp : splitFirstToken s = none := by
      cases hsp : splitFirstToken s with
      | none => rfl
      | some r =>
          obtain ⟨p, c, a⟩ := r
          rw [extractTokens_some s p c a hsp] at hext
          simp at hext
    exact ⟨replaceTokens_none _ s hsp, by unfold extractKeys; rw [hext]; rfl⟩

/-- Witness for C10: a concrete newline-spanning token is not discovered
and passes through substitution untouched even with its key mapped. -/
theorem c10_newline_tokens_witness :
    (∀ ch ∈ "ok".toList, isLineTerm ch = false) ∧
      substituteContent [("a".toList, some "c".toList)] [("c".toList, "v".toList)]
          ['x', '{', '{', 'a', '\n', 'b', '}', '}', 'y'] = ['x', '{', '{', 'a', '\n', 'b', '}', '}', 'y'] ∧
      extractKeys ['x', '{', '{', 'a', '\n', 'b', '}', '}', 'y'] = [] :=
  ⟨c10_newline_tokens.1 "{{ok}}".toList "ok".toList (by decide),
    (c10_newline_tokens.2 [("a".toList, some "c".toList)] [("c".toList, "v".toList)]
      ['x', '{', '{', 'a', '\n', 'b', '}', '}', 'y'] (by decide)).1,
    (c10_newline_tokens.2 [("a".toList, some "c".toList)] [("c".toList, "v".toList)]
      ['x', '{', '{', 'a', '\n', 'b', '}', '}', 'y'] (by decide)).2⟩

/-- The progress calls of the loop trace, from any starting index. -/
theorem batchTrace_filterMap (tpl : Archive) (m : ColumnMapping) :
    ∀ (l : List CsvRow) (i total : Nat),
      (batchTrace tpl m l i total).filterMap progressOf =
        (List.range l.length).map (fun j => (i + j + 1, total)) := by
  intro l
  induction l with
  | nil => intro i total; simp [batchTrace]
  | cons row rest ih =>
      intro i total
      simp only [batchTrace, List.filterMap_cons, progressOf]
      rw [ih (i + 1) total]
      rw [List.length_cons, List.range_succ_eq_map]
      simp only [List.map_cons, List.map_map]
      congr 1
      apply List.map_congr_left
      intro j hj
      simp only [Function.comp_apply, Prod.mk.injEq]
      exact ⟨by omega, trivial⟩

/-- Row `k`'s archive-added event is immediately followed by its progress
call, somewhere in the loop trace. -/
theorem batchTrace_nth (tpl : Archive) (m : ColumnMapping) :
    ∀ (l : List CsvRow) (i total k : Nat) (hk : k < l.length),
      ∃ t1 t2, batchTrace tpl m l i total =
        t1 ++ Ev.added (fileName (i + k) (l.get ⟨k, hk⟩))
            (processRow tpl m (l.get ⟨k, hk⟩)) ::
          Ev.progress (i + k + 1) total :: t2 := by
  intro l
  induction l with
  | nil => intro i total k hk; simp at hk
  | cons row rest ih =>
      intro i total k hk
      cases k with
      | zero =>
          exact ⟨[], batchTrace tpl m rest (i + 1) total, by simp [batchTrace]⟩
      | succ j =>
          have hj : j < rest.length := by simpa using hk
          obtain ⟨t1, t2, ht⟩ := ih (i + 1) total j hj
          have ha1 : i + 1 + j = i + (j + 1) := by omega
          rw [ha1] at ht
          refine ⟨Ev.added (fileName i row) (processRow tpl m row) ::
            Ev.progress (i + 1) total :: t1, t2, ?_⟩
          simp only [batchTrace, List.cons_append]
          rw [ht]
          rfl

/-- C4: for every batch of `N` rows, the `onProgress` callback is invoked
exactly `N` times, with first arguments forming the sequence `1..N` in
input-row order, and each invocation occurs only after that row's output
archive has been produced and added to the output collection (the trace
places row `i`'s added event immediately before its progress call). -/
theorem c4_progress_sequence (tpl : Archive) (m : ColumnMapping) (data : List CsvRow) :
    (generateTrace tpl m data).filterMap progressOf =
      (List.range data.length).map (fun i => (i + 1, data.length)) ∧
      ∀ (i : Nat) (hi : i < data.length),
        ∃ t1 t2, generateTrace tpl m data =
          t1 ++ Ev.added (fileName i (data.get ⟨i, hi⟩))
              (processRow tpl m (data.get ⟨i, hi⟩)) ::
            Ev.progress (i + 1) data.length :: t2 := by
  constructor
  · unfold generateTrace
    rw [batchTrace_filterMap tpl m data 0 data.length]
    apply List.map_congr_left
    intro j hj
    simp
  · intro i hi
    have h := batchTrace_nth tpl m data 0 data.length i hi
    unfold generateTrace
    simpa using h

/-- Witness for C4 on a concrete two-row batch. -/
theorem c4_progress_sequence_witness :
    (generateTrace [] [] [[("c".toList, "u".toList)], [("c".toList, "w".toList)]]).filterMap
        progressOf = [(1, 2), (2, 2)] ∧
      ∃ t1 t2, generateTrace [] [] [[("c".toList, "u".toList)], [("c".toList, "w".toList)]] =
        t1 ++ Ev.added (fileName 1 [("c".toList, "w".toList)])
            (processRow [] [] [("c".toList, "w".toList)]) ::
          Ev.progress 2 2 :: t2 := by
  constructor
  · rw [(c4_progress_sequence [] [] [[("c".toList, "u".toList)], [("c".toList, "w".toList)]]).1]
    decide
  · exact (c4_progress_sequence [] []
      [[("c".toList, "u".toList)], [("c".toList, "w".toList)]]).2 1 (by decide)

/-- Every character produced by the decimal worker is a digit character. -/
theorem natDigitsAux_digits :
    ∀ (fuel n : Nat), ∀ ch ∈ natDigitsAux fuel n, ∃ d, d < 10 ∧ ch = Char.ofNat (48 + d) := by
  intro fuel
  induction fuel with
  | zero => intro n ch hch; simp [natDigitsAux] at hch
  | succ k ih =>
      intro n ch hch
      rw [natDigitsAux] at hch
      by_cases hn : n = 0
      · simp [hn] at hch
      · simp only [hn, if_false, List.mem_append, List.mem_singleton] at hch
        rcases hch with hch | hch
        · exact ih (n / 10) ch hch
        · exact ⟨n % 10, Nat.mod_lt n (by omega), hch⟩

theorem digitVal_ofNat (d : Nat) (hd : d < 10) :
    digitVal (Char.ofNat (48 + d)) = d := by
  interval_cases d <;> decide

theorem parseNat_append_digit (l : List Char) (c : Char) :
    parseNat (l ++ [c]) = 10 * parseNat l + digitVal c := by
  simp [parseNat, List.foldl_append]

theorem natDigitsAux_parse :
    ∀ (fuel n : Nat), n ≤ fuel → parseNat (natDigitsAux fuel n) = n := by
  intro fuel
  induction fuel with
  | zero =>
      intro n hn
      have : n = 0 := by omega
      subst this
      rfl
  | succ k ih =>
      intro n hn
      rw [natDigitsAux]
      by_cases hn0 : n = 0
      · simp [hn0, parseNat]
      · simp only [hn0, if_false]
        rw [parseNat_append_digit, ih (n / 10) ?hle, digitVal_ofNat (n % 10) (Nat.mod_lt n (by omega))]
        · omega
        · have := Nat.div_lt_self (Nat.pos_of_ne_zero hn0) (by norm_num : 1 < 10)
          omega

theorem parseNat_natStr (n : Nat) : parseNat (natStr n) = n := by
  unfold natStr
  by_cases hn : n = 0
  · simp [hn]; decide
  · simp only [hn, if_false]
    exact natDigitsAux_parse n n le_rfl

/-- Decimal rendering is injective. -/
theorem natStr_inj (a b : Nat) (h : natStr a = natStr b) : a = b := by
  have ha := parseNat_natStr a
  have hb := parseNat_natStr b
  rw [h] at ha
  omega

/-- Decimal renderings contain no underscore. -/
theorem natStr_no_underscore (n : Nat) : ∀ ch ∈ natStr n, ch ≠ '_' := by
  intro ch hch
  unfold natStr at hch
  by_cases hn : n = 0
  · simp [hn] at hch
    subst hch
    decide
  · simp only [hn, if_false] at hch
    obtain ⟨d, hd, rfl⟩ := natDigitsAux_digits n n ch hch
    interval_cases d <;> decide

/-- Splitting two concatenations at their first underscore. -/
theorem underscore_split (a : List Char) :
    ∀ (b u v : List Char), (∀ ch ∈ a, ch ≠ '_') → (∀ ch ∈ b, ch ≠ '_') →
      a ++ '_' :: u = b ++ '_' :: v → a = b ∧ u = v := by
  induction a with
  | nil =>
      intro b u v _ hb h
      cases b with
      | nil => simpa using h
      | cons y bs =>
          simp only [List.nil_append, List.cons_append, List.cons.injEq] at h
          exact absurd h.1.symm (hb y (by simp))
  | cons x as ih =>
      intro b u v ha hb h
      cases b with
      | nil =>
          simp only [List.cons_append, List.nil_append, List.cons.injEq] at h
          exact absurd h.1 (ha x (by simp))
      | cons y bs =>
          simp only [List.cons_append, List.cons.injEq] at h
          obtain ⟨hxy, hrest⟩ := h
          have := ih bs u v (fun ch hch => ha ch (by simp [hch]))
            (fun ch hch => hb ch (by simp [hch])) hrest
          exact ⟨by simp [hxy, this.1], this.2⟩

/-- Derived filenames determine the row index: the decimal `i+1` between
`slide_` and the next underscore is underscore-free, so equal filenames
force equal indices. -/
theorem fileName_inj_index (i j : Nat) (r r2 : CsvRow)
    (h : fileName i r = fileName j r2) : i = j := by
  unfold fileName at h
  simp only [List.append_assoc] at h
  have h2 := List.append_cancel_left h
  simp only [show ("_".toList : List Char) = ['_'] from rfl, List.singleton_append] at h2
  have hs := underscore_split (natStr (i + 1)) (natStr (j + 1)) _ _
    (natStr_no_underscore (i + 1)) (natStr_no_underscore (j + 1)) h2
  have := natStr_inj (i + 1) (j + 1) hs.1
  omega

theorem assocLookup_append_of_none {β : Type} (z w : List (List Char × β)) (k : List Char)
    (h : assocLookup z k = none) : assocLookup (z ++ w) k = assocLookup w k := by
  induction z with
  | nil => rfl
  | cons e rest ih =>
      rw [assocLookup] at h
      by_cases he : e.1 = k
      · simp [he] at h
      · simp only [List.cons_append, assocLookup, he, if_false] at *
        exact ih h

/-- When the name is absent, `zip.file(name, content)` appends an entry. -/
theorem zipPut_append_of_none {β : Type} (z : List (List Char × β)) (name : List Char)
    (content : β) (h : assocLookup z name = none) :
    zipPut z name content = z ++ [(name, content)] := by
  unfold zipPut
  rw [h]
  rfl

/-- The master accumulation never overwrites: every name already present
comes from an earlier index, and filenames embed the row index, so each
row appends a fresh entry. -/
theorem generateMasterAux_eq (tpl : Archive) (m : ColumnMapping) :
    ∀ (l : List CsvRow) (i : Nat) (mz : MasterZip)
      (hinv : ∀ (j : Nat) (r : CsvRow), i ≤ j → assocLookup mz (fileName j r) = none),
      generateMasterAux tpl m l i mz =
        mz ++ (List.enumFrom i l).map (fun e => (fileName e.1 e.2, processRow tpl m e.2)) := by
  intro l
  induction l with
  | nil => intro i mz hinv; simp [generateMasterAux, List.enumFrom]
  | cons row rest ih =>
      intro i mz hinv
      simp only [generateMasterAux, List.enumFrom, List.map_cons]
      rw [zipPut_append_of_none mz (fileName i row) _ (hinv i row le_rfl)]
      rw [ih (i + 1) (mz ++ [(fileName i row, processRow tpl m row)]) ?_]
      · simp
      · intro j r hj
        rw [assocLookup_append_of_none mz _ _ (hinv j r (by omega))]
        have hne : fileName i row ≠ fileName j r := by
          intro heq
          have := fileName_inj_index i j row r heq
          omega
        simp [assocLookup, hne]

/-- Looking up row `k`'s filename in the enumerated entry list finds row
`k`'s archive: earlier entries have different indices, hence different
names. -/
theorem assocLookup_enumFrom_map (tpl : Archive) (m : ColumnMapping) :
    ∀ (l : List CsvRow) (b k : Nat) (hk : k < l.length),
      assocLookup ((List.enumFrom b l).map
          (fun e => (fileName e.1 e.2, processRow tpl m e.2)))
        (fileName (b + k) (l.get ⟨k, hk⟩)) =
        some (processRow tpl m (l.get ⟨k, hk⟩)) := by
  intro l
  induction l with
  | nil => intro b k hk; simp at hk
  | cons row rest ih =>
      intro b k hk
      simp only [List.enumFrom, List.map_cons, assocLookup]
      cases k with
      | zero => simp
      | succ j =>
          have hj : j < rest.length := by simpa using hk
          have hne : fileName b row ≠ fileName (b + (j + 1)) ((row :: rest).get ⟨j + 1, hk⟩) := by
            intro heq
            have := fileName_inj_index b (b + (j + 1)) row _ heq
            omega
          rw [if_neg hne]
          have hb : b + (j + 1) = (b + 1) + j := by omega
          have hget : (row :: rest).get ⟨j + 1, hk⟩ = rest.get ⟨j, hj⟩ := rfl
          rw [hget, hb]
          exact ih (b + 1) j hj

/-- C8 counterexample to the claim as stated: two rows whose first-column
sanitized values collide (Scenario E, both `"John Doe"`) do NOT produce
the same derived filename — the 1-based row index embedded in
`slide_${i+1}_...` makes the names distinct — and the aggregated outer
archive holds two entries, not one. -/
theorem c8_collision_counterexample :
    fileName 0 [("Name".toList, "John Doe".toList)] ≠
        fileName 1 [("Name".toList, "John Doe".toList)] ∧
      (generateMaster [] []
          [[("Name".toList, "John Doe".toList)], [("Name".toList, "John Doe".toList)]]).map
        Prod.fst =
        ["slide_1_John_Doe.pptx".toList, "slide_2_John_Doe.pptx".toList] ∧
      (generateMaster [] []
          [[("Name".toList, "John Doe".toList)], [("Name".toList, "John Doe".toList)]]).length =
        2 := by
  refine ⟨by decide, by decide, by decide⟩

/-- C8 as amended: two distinct rows never produce the same derived output
filename (the row-index component is injective), so the aggregated outer
archive contains exactly one entry per row — row `i`'s entry under row
`i`'s name holding row `i`'s archive — and the underlying JSZip overwrite
semantics is never exercised. -/
theorem c8_unique_filenames (tpl : Archive) (m : ColumnMapping) (data : List CsvRow) :
    (∀ (i j : Nat) (r r2 : CsvRow), fileName i r = fileName j r2 → i = j) ∧
      generateMaster tpl m data =
        (List.enumFrom 0 data).map (fun e => (fileName e.1 e.2, processRow tpl m e.2)) ∧
      ∀ (i : Nat) (hi : i < data.length),
        assocLookup (generateMaster tpl m data) (fileName i (data.get ⟨i, hi⟩)) =
          some (processRow tpl m (data.get ⟨i, hi⟩)) := by
  have hmaster : generateMaster tpl m data =
      (List.enumFrom 0 data).map (fun e => (fileName e.1 e.2, processRow tpl m e.2)) := by
    unfold generateMaster
    rw [generateMasterAux_eq tpl m data 0 [] (fun j r hj => rfl)]
    rfl
  refine ⟨fileName_inj_index, hmaster, ?_⟩
  intro i hi
  rw [hmaster]
  have h := assocLookup_enumFrom_map tpl m data 0 i hi
  simpa using h

/-- Witness for C8 (amended) on a concrete two-row batch with identical
first-column values. -/
theorem c8_unique_filenames_witness :
    assocLookup
        (generateMaster [] []
          [[("Name".toList, "John Doe".toList)], [("Name".toList, "John Doe".toList)]])
        (fileName 1 [("Name".toList, "John Doe".toList)]) =
      some (processRow [] [] [("Name".toList, "John Doe".toList)]) :=
  (c8_unique_filenames [] []
    [[("Name".toList, "John Doe".toList)], [("Name".toList, "John Doe".toList)]]).2.2 1
    (by decide)

/-- A blocked text stays blocked under any extension: the line terminator
is reached before any closer, and no closer can form across it. -/
theorem blocked_append (u : List Char) :
    ∀ (z : List Char), blocked u = true → blocked (u ++ z) = true := by
  induction u with
  | nil => intro z h; simp [blocked] at h
  | cons c rest ih =>
      intro z h
      rw [blocked] at h
      split at h
      · exact absurd h (by simp)
      · rename_i hnp
        rw [List.cons_append, blocked]
        have hnp2 : ¬(c = '}' ∧ (rest ++ z).head? = some '}') := by
          intro hcp
          cases rest with
          | nil =>
              split at h
              · rename_i hlt
                exact absurd hcp.1 (by intro hc; subst hc; simp [isLineTerm] at hlt)
              · simp [blocked] at h
          | cons d rest2 => exact hnp ⟨hcp.1, by simpa using hcp.2⟩
        rw [if_neg hnp2]
        split at h
        · rename_i hlt; simp [hlt]
        · rename_i hlt
          rw [if_neg hlt]
          exact ih z h

/-- Scanning for a closer through a blocked text fails whatever follows. -/
theorem findClose_none_of_blocked (u : List Char) :
    ∀ (z acc : List Char), blocked u = true → findClose acc (u ++ z) = none := by
  induction u with
  | nil => intro z acc h; simp [blocked] at h
  | cons c rest ih =>
      intro z acc h
      rw [blocked] at h
      split at h
      · exact absurd h (by simp)
      · rename_i hnp
        rw [List.cons_append, findClose]
        have hnp2 : ¬(c = '}' ∧ (rest ++ z).head? = some '}') := by
          intro hcp
          cases rest with
          | nil =>
              split at h
              · rename_i hlt
                exact absurd hcp.1 (by intro hc; subst hc; simp [isLineTerm] at hlt)
              · simp [blocked] at h
          | cons d rest2 => exact hnp ⟨hcp.1, by simpa using hcp.2⟩
        rw [if_neg hnp2]
        split at h
        · rename_i hlt; simp [hlt]
        · rename_i hlt
          rw [if_neg hlt]
          exact ih z (c :: acc) h

/-- Scanning a clean content (no `}}`, no line terminator, no trailing
`}`) finds exactly the closer appended after it. -/
theorem findClose_clean (co : List Char) :
    ∀ (z acc : List Char), (∀ ch ∈ co, isLineTerm ch = false) →
      hasPair '}' '}' co = false → co.getLast? ≠ some '}' →
      findClose acc (co ++ '}' :: '}' :: z) = some (acc.reverse ++ co, z) := by
  induction co with
  | nil => intro z acc _ _ _; simp [findClose]
  | cons x xs ih =>
      intro z acc hnl hhp hlast
      rw [List.cons_append, findClose]
      rw [hasPair] at hhp
      simp only [Bool.or_eq_false_iff, Bool.and_eq_false_iff] at hhp
      have hx : ¬(x = '}' ∧ (xs ++ '}' :: '}' :: z).head? = some '}') := by
        rintro ⟨rfl, hh⟩
        cases xs with
        | nil => exact hlast (by simp)
        | cons y ys =>
            simp only [List.cons_append, List.head?_cons, Option.some.injEq] at hh
            rcases hhp.1 with h | h
            · simp at h
            · simp [hh] at h
      rw [if_neg hx, if_neg (by simp [hnl x (by simp)])]
      have hlast2 : xs.getLast? ≠ some '}' := by
        cases xs with
        | nil => simp
        | cons y ys =>
            rw [List.getLast?_cons_cons] at hlast
            exact hlast
      rw [ih z (x :: acc) (fun ch hch => hnl ch (by simp [hch])) hhp.2 hlast2]
      simp

/-- If scanning for a closer through `u` and then a clean token fails, the
failure happened inside `u`: `u` is blocked. -/
theorem blocked_of_findClose_none (u : List Char) :
    ∀ (co a acc : List Char), (∀ ch ∈ co, isLineTerm ch = false) →
      hasPair '}' '}' co = false → co.getLast? ≠ some '}' →
      findClose acc (u ++ ('{' :: '{' :: (co ++ '}' :: '}' :: a))) = none →
      blocked u = true := by
  induction u with
  | nil =>
      intro co a acc hnl hhp hlast h
      rw [List.nil_append, findClose] at h
      rw [if_neg (by simp), if_neg (by simp [isLineTerm])] at h
      rw [findClose] at h
      rw [if_neg (by simp), if_neg (by simp [isLineTerm])] at h
      rw [findClose_clean co a ('{' :: '{' :: acc) hnl hhp hlast] at h
      exact absurd h (by simp)
  | cons c rest ih =>
      intro co a acc hnl hhp hlast h
      rw [List.cons_append, findClose] at h
      rw [blocked]
      split at h
      · exact absurd h (by simp)
      · rename_i hnp
        have hnp2 : ¬(c = '}' ∧ rest.head? = some '}') := by
          rintro ⟨rfl, hh⟩
          cases rest with
          | nil => simp at hh
          | cons d rest2 => exact hnp ⟨rfl, by simpa using hh⟩
        rw [if_neg hnp2]
        split at h
        · rename_i hlt; simp [hlt]
        · rename_i hlt
          rw [if_neg hlt]
          exact ih co a (c :: acc) hnl hhp hlast h

/-- The before-text of the leftmost match is safe — no match can start in
it whatever the continuation — and never ends in `{`. -/
theorem splitFirstToken_safe (s : List Char) :
    ∀ (p co a : List Char), splitFirstToken s = some (p, co, a) →
      safeSeg p = true ∧ p.getLast? ≠ some '{' := by
  induction s with
  | nil => intro p co a h; simp [splitFirstToken] at h
  | cons c rest ih =>
      intro p co a h
      rw [splitFirstToken] at h
      split at h
      · rename_i hc
        obtain ⟨hc1, hc2⟩ := hc
        cases hfc : findClose [] rest.tail with
        | none =>
            rw [hfc] at h
            cases hs : splitFirstToken rest with
            | none => rw [hs] at h; exact absurd h (by simp)
            | some r =>
                obtain ⟨p', co', a'⟩ := r
                rw [hs] at h
                simp only [Option.some.injEq, Prod.mk.injEq] at h
                obtain ⟨h2, h3, h4⟩ := h
                subst h3; subst h4
                subst h2
                obtain ⟨ihs, ihl⟩ := ih p' co' a' hs
                have hre2 := splitFirstToken_eq_append rest p' co' a' hs
                have hprops2 := splitFirstToken_content_props rest p' co' a' hs
                have hpne : p' ≠ [] := by
                  intro hpe
                  subst hpe
                  rw [List.nil_append] at hre2
                  have hft : rest.tail = '{' :: (co' ++ '}' :: '}' :: a') := by
                    rw [hre2, matchString]
                    simp
                  rw [hft, findClose, if_neg (by simp),
                    if_neg (by simp [isLineTerm])] at hfc
                  rw [findClose_clean co' a' ['{'] hprops2.1 hprops2.2.1
                    hprops2.2.2] at hfc
                  exact absurd hfc (by simp)
                constructor
                · rw [safeSeg]
                  by_cases hph : p'.head? = some '{'
                  · rw [if_pos ⟨hc1, hph⟩]
                    cases hp : p' with
                    | nil => exact absurd hp hpne
                    | cons x p2 =>
                        subst hp
                        simp only [List.head?_cons, Option.some.injEq] at hph
                        subst hph
                        simp only [List.tail_cons, Bool.and_eq_true]
                        refine ⟨?_, ihs⟩
                        have hft : rest.tail = p2 ++ ('{' :: '{' :: (co' ++ '}' :: '}' :: a')) := by
                          rw [hre2, matchString]
                          simp
                        rw [hft] at hfc
                        exact blocked_of_findClose_none p2 co' a' [] hprops2.1
                          hprops2.2.1 hprops2.2.2 hfc
                  · rw [if_neg (by rintro ⟨h5, h6⟩; exact hph h6)]
                    exact ihs
                · cases hp : p' with
                  | nil => exact absurd hp hpne
                  | cons x p2 =>
                      subst hp
                      rw [List.getLast?_cons_cons]
                      exact ihl
        | some r =>
            obtain ⟨co', a'⟩ := r
            rw [hfc] at h
            simp only [Option.some.injEq, Prod.mk.injEq] at h
            obtain ⟨h2, h3, h4⟩ := h
            subst h2
            exact ⟨rfl, by simp⟩
      · rename_i hnc
        cases hs : splitFirstToken rest with
        | none => rw [hs] at h; exact absurd h (by simp)
        | some r =>
            obtain ⟨p', co', a'⟩ := r
            rw [hs] at h
            simp only [Option.some.injEq, Prod.mk.injEq] at h
            obtain ⟨h2, h3, h4⟩ := h
            subst h3; subst h4
            subst h2
            obtain ⟨ihs, ihl⟩ := ih p' co' a' hs
            have hre2 := splitFirstToken_eq_append rest p' co' a' hs
            constructor
            · rw [safeSeg]
              have hnc2 : ¬(c = '{' ∧ p'.head? = some '{') := by
                rintro ⟨rfl, hph⟩
                apply hnc
                refine ⟨rfl, ?_⟩
                rw [hre2]
                cases hp : p' with
                | nil => simp [hp] at hph
                | cons x p2 =>
                    subst hp
                    simp only [List.head?_cons, Option.some.injEq] at hph
                    subst hph
                    simp
              rw [if_neg hnc2]
              exact ihs
            · cases hp : p' with
              | nil =>
                  subst hp
                  have hcne : c ≠ '{' := by
                    intro hce
                    subst hce
                    apply hnc
                    refine ⟨rfl, ?_⟩
                    rw [hre2, List.nil_append, matchString]
                    simp
                  simp [hcne]
              | cons x p2 =>
                  subst hp
                  rw [List.getLast?_cons_cons]
                  exact ihl

/-- Scanning a safe text followed by anything: no match starts in the safe
part (its `{{`s are blocked into any continuation), and unless the safe
part ends in `{` meeting a `{` (excluded by hypothesis), the leftmost
match of the concatenation is the leftmost match of the continuation. -/
theorem splitFirstToken_append_safe (q : List Char) :
    ∀ (X : List Char), safeSeg q = true →
      (q.getLast? ≠ some '{' ∨ X.head? ≠ some '{') →
      splitFirstToken (q ++ X) =
        (splitFirstToken X).map (fun r => (q ++ r.1, r.2.1, r.2.2)) := by
  induction q with
  | nil =>
      intro X _ _
      simp only [List.nil_append]
      cases splitFirstToken X with
      | none => rfl
      | some r => obtain ⟨p, co, a⟩ := r; rfl
  | cons c q2 ih =>
      intro X hsafe hdisj
      rw [safeSeg] at hsafe
      rw [List.cons_append, splitFirstToken]
      by_cases hsc : c = '{' ∧ q2.head? = some '{'
      · rw [if_pos hsc] at hsafe
        simp only [Bool.and_eq_true] at hsafe
        obtain ⟨hbl, hsf2⟩ := hsafe
        obtain ⟨hc1, hq2h⟩ := hsc
        cases hq2 : q2 with
        | nil => subst hq2; simp at hq2h
        | cons y q3 =>
            subst hq2
            simp only [List.head?_cons, Option.some.injEq] at hq2h
            subst hq2h
            simp only [List.tail_cons] at hbl
            have hq3ne : q3 ≠ [] := by
              intro h3
              subst h3
              simp [blocked] at hbl
            rw [if_pos ⟨hc1, by simp⟩]
            have hft : (('{' :: q3) ++ X).tail = q3 ++ X := by simp
            rw [hft, findClose_none_of_blocked q3 X [] hbl]
            rw [ih X hsf2 ?_]
            · cases splitFirstToken X with
              | none => rfl
              | some r => obtain ⟨p, co, a⟩ := r; rfl
            · rcases hdisj with hd | hd
              · left
                cases hq3 : q3 with
                | nil => exact absurd hq3 hq3ne
                | cons z q4 =>
                    subst hq3
                    rw [List.getLast?_cons_cons, List.getLast?_cons_cons] at hd
                    rw [List.getLast?_cons_cons]
                    exact hd
              · right; exact hd
      · rw [if_neg hsc] at hsafe
        by_cases hgc : c = '{' ∧ (q2 ++ X).head? = some '{'
        · obtain ⟨hc1, hh⟩ := hgc
          cases hq2 : q2 with
          | cons y q3 =>
              subst hq2
              simp only [List.cons_append, List.head?_cons, Option.some.injEq] at hh
              exact absurd ⟨hc1, by simp [hh]⟩ hsc
          | nil =>
              subst hq2
              rw [List.nil_append] at hh
              rcases hdisj with hd | hd
              · subst hc1; simp at hd
              · exact absurd hh hd
        · rw [if_neg hgc]
          have hdisj2 : q2.getLast? ≠ some '{' ∨ X.head? ≠ some '{' := by
            rcases hdisj with hd | hd
            · cases hq2 : q2 with
              | nil => left; simp
              | cons y q3 =>
                  subst hq2
                  rw [List.getLast?_cons_cons] at hd
                  left; exact hd
            · right; exact hd
          rw [ih X hsafe hdisj2]
          cases splitFirstToken X with
          | none => rfl
          | some r => obtain ⟨p, co, a⟩ := r; rfl

/-- Token contents are unchanged by prepending a safe text. -/
theorem extractTokens_append_safe (q X : List Char) (hsafe : safeSeg q = true)
    (hdisj : q.getLast? ≠ some '{' ∨ X.head? ≠ some '{') :
    extractTokens (q ++ X) = extractTokens X := by
  cases hs : splitFirstToken X with
  | none =>
      have h1 := splitFirstToken_append_safe q X hsafe hdisj
      rw [hs] at h1
      rw [extractTokens_none (q ++ X) h1, extractTokens_none X hs]
  | some r =>
      obtain ⟨p, co, a⟩ := r
      have h1 := splitFirstToken_append_safe q X hsafe hdisj
      rw [hs] at h1
      simp only [Option.map_some'] at h1
      rw [extractTokens_some (q ++ X) (q ++ p) co a h1, extractTokens_some X p co a hs]

/-- A brace-free text is safe. -/
theorem safeSeg_of_bracesFree (w : List Char) (hw : bracesFree w = true) :
    safeSeg w = true := by
  induction w with
  | nil => rfl
  | cons c rest ih =>
      rw [bracesFree] at hw
      simp only [List.all_cons, Bool.and_eq_true] at hw
      rw [safeSeg, if_neg ?_]
      · exact ih (by simpa [bracesFree] using hw.2)
      · rintro ⟨hc, _⟩
        subst hc
        simp at hw

/-- Appending brace-free text preserves safety. -/
theorem safeSeg_append_bracesFree (q : List Char) :
    ∀ (w : List Char), safeSeg q = true → bracesFree w = true →
      safeSeg (q ++ w) = true := by
  induction q with
  | nil => intro w _ hw; simpa using safeSeg_of_bracesFree w hw
  | cons c q2 ih =>
      intro w hsafe hw
      rw [safeSeg] at hsafe
      rw [List.cons_append, safeSeg]
      by_cases hsc : c = '{' ∧ q2.head? = some '{'
      · rw [if_pos hsc] at hsafe
        simp only [Bool.and_eq_true] at hsafe
        obtain ⟨hc1, hq2h⟩ := hsc
        cases hq2 : q2 with
        | nil => subst hq2; simp at hq2h
        | cons y q3 =>
            subst hq2
            simp only [List.head?_cons, Option.some.injEq] at hq2h
            subst hq2h
            rw [if_pos ⟨hc1, by simp⟩]
            simp only [List.tail_cons] at hsafe
            simp only [List.cons_append, List.tail_cons, Bool.and_eq_true]
            exact ⟨blocked_append q3 w hsafe.1, ih w hsafe.2 hw⟩
      · rw [if_neg hsc] at hsafe
        rw [if_neg ?_]
        · exact ih w hsafe hw
        · rintro ⟨hc1, hh⟩
          cases hq2 : q2 with
          | cons y q3 =>
              subst hq2
              simp only [List.cons_append, List.head?_cons, Option.some.injEq] at hh
              exact hsc ⟨hc1, by simp [hh]⟩
          | nil =>
              subst hq2
              rw [List.nil_append] at hh
              cases hwc : w with
              | nil => subst hwc; simp at hh
              | cons z ws =>
                  subst hwc
                  simp only [List.head?_cons, Option.some.injEq] at hh
                  subst hh
                  rw [bracesFree] at hw
                  simp at hw

/-- The last element of a concatenation with a brace-free tail. -/
theorem getLast?_append_bracesFree (q w : List Char) (hq : q.getLast? ≠ some '{')
    (hw : bracesFree w = true) : (q ++ w).getLast? ≠ some '{' := by
  cases hwc : w with
  | nil => subst hwc; simpa using hq
  | cons z ws =>
      subst hwc
      intro hcon
      rw [List.getLast?_append_of_ne_nil q (by simp)] at hcon
      have hx : '{' ∈ (z :: ws).getLast? := Option.mem_def.mpr hcon
      obtain ⟨hne, heq⟩ := List.mem_getLast?_eq_getLast hx
      have hmem : '{' ∈ z :: ws := by
        rw [heq]
        exact List.getLast_mem hne
      rw [bracesFree] at hw
      have := List.all_eq_true.mp hw _ hmem
      simp at this

/-- A successful association lookup returns an entry of the list. -/
theorem assocLookup_mem {β : Type} (l : List (List Char × β)) (k : List Char) (v : β)
    (h : assocLookup l k = some v) : (k, v) ∈ l := by
  induction l with
  | nil => simp [assocLookup] at h
  | cons e rest ih =>
      rw [assocLookup] at h
      split at h
      · rename_i he
        simp only [Option.some.injEq] at h
        obtain ⟨a, b⟩ := e
        simp only at he h
        subst he
        subst h
        exact List.mem_cons_self _ _
      · exact List.mem_cons_of_mem _ (ih h)

/-- Entity encoding introduces no braces. -/
theorem bracesFree_encodeAll (v : List Char) (hv : bracesFree v = true) :
    bracesFree (encodeAll v) = true := by
  induction v with
  | nil => rfl
  | cons c rest ih =>
      rw [bracesFree] at hv
      simp only [List.all_cons, Bool.and_eq_true] at hv
      rw [encodeAll, bracesFree, List.all_append]
      simp only [Bool.and_eq_true]
      constructor
      · by_cases h1 : c = '&'
        · subst h1; decide
        by_cases h2 : c = '<'
        · subst h2; decide
        by_cases h3 : c = '>'
        · subst h3; decide
        by_cases h4 : c = '"'
        · subst h4; decide
        by_cases h5 : c = '\''
        · subst h5; decide
        simp only [encodeChar, h1, h2, h3, h4, h5, if_false]
        simpa using hv.1
      · have := ih (by simpa [bracesFree] using hv.2)
        simpa [bracesFree] using this

/-- A kept token's callback result is the original match text. -/
theorem substToken_of_kept (m : ColumnMapping) (row : CsvRow) (content : List Char)
    (h : tokenKept m row content = true) :
    substToken m row content = matchString content := by
  unfold tokenKept keptKey at h
  unfold substToken
  cases hm : assocLookup m (trim content) with
  | none => rfl
  | some o =>
      cases o with
      | none => rfl
      | some col =>
          rw [hm] at h
          by_cases hc : col = []
          · simp [hc]
          · simp only [hc, ne_eq, not_false_eq_true, if_true] at h ⊢
            cases hr : assocLookup row col with
            | none => rfl
            | some v => rw [hr] at h; simp at h

/-- A replaced token's callback result is brace-free when the row's values
are brace-free. -/
theorem substToken_bracesFree (m : ColumnMapping) (row : CsvRow) (content : List Char)
    (hrow : rowValuesBraceFree row = true) (h : tokenKept m row content = false) :
    bracesFree (substToken m row content) = true := by
  unfold tokenKept keptKey at h
  unfold substToken
  cases hm : assocLookup m (trim content) with
  | none => rw [hm] at h; simp at h
  | some o =>
      cases o with
      | none => rw [hm] at h; simp at h
      | some col =>
          rw [hm] at h
          by_cases hc : col = []
          · rw [hc] at h; simp at h
          · simp only [hc, ne_eq, not_false_eq_true, if_true] at h ⊢
            cases hr : assocLookup row col with
            | none => rw [hr] at h; simp at h
            | some v =>
                have hmem := assocLookup_mem row col v hr
                have hv : bracesFree v = true := by
                  unfold rowValuesBraceFree at hrow
                  exact List.all_eq_true.mp hrow _ hmem
                show bracesFree (escapeXml (jsOr v [])) = true
                rw [escapeXml_eq_encodeAll]
                apply bracesFree_encodeAll
                unfold jsOr
                by_cases hve : v = []
                · simp [hve, bracesFree]
                · simpa [hve] using hv

/-- Contents-level substitution law: with brace-free row values, the
tokens surviving substitution are exactly the kept tokens of the input, in
order — replaced values, being brace-free, can neither form new tokens nor
enable matches across segment boundaries. -/
theorem extractTokens_substituteContent (m : ColumnMapping) (row : CsvRow)
    (hrow : rowValuesBraceFree row = true) :
    ∀ (s : List Char),
      extractTokens (substituteContent m row s) =
        (extractTokens s).filter (fun c => tokenKept m row c) := by
  suffices H : ∀ (n : Nat) (s : List Char), s.length ≤ n →
      extractTokens (substituteContent m row s) =
        (extractTokens s).filter (fun c => tokenKept m row c) from
    fun s => H s.length s le_rfl
  intro n
  induction n with
  | zero =>
      intro s hs
      have hnil : s = [] := by
        cases s with
        | nil => rfl
        | cons c r => simp at hs
      subst hnil
      rfl
  | succ n ih =>
      intro s hs
      cases hsp : splitFirstToken s with
      | none =>
          unfold substituteContent
          rw [replaceTokens_none _ s hsp, extractTokens_none s hsp]
          rfl
      | some r =>
          obtain ⟨p, c, a⟩ := r
          have hlen := splitFirstToken_after_length s p c a hsp
          have hsafe := splitFirstToken_safe s p c a hsp
          have hprops := splitFirstToken_content_props s p c a hsp
          have iha := ih a (by omega)
          unfold substituteContent at iha ⊢
          rw [replaceTokens_some _ s p c a hsp, extractTokens_some s p c a hsp]
          by_cases hk : tokenKept m row c = true
          · rw [substToken_of_kept m row c hk]
            have hX : matchString c ++ replaceTokens (substToken m row) a =
                '{' :: '{' :: (c ++ '}' :: '}' :: replaceTokens (substToken m row) a) := by
              rw [matchString]
              simp
            rw [List.append_assoc, hX]
            have hsplitX : splitFirstToken
                ('{' :: '{' :: (c ++ '}' :: '}' :: replaceTokens (substToken m row) a)) =
                some ([], c, replaceTokens (substToken m row) a) := by
              rw [splitFirstToken, if_pos ⟨rfl, by simp⟩]
              simp only [List.tail_cons]
              rw [findClose_clean c _ [] hprops.1 hprops.2.1 hprops.2.2]
              simp
            have h5 := splitFirstToken_append_safe p
              ('{' :: '{' :: (c ++ '}' :: '}' :: replaceTokens (substToken m row) a))
              hsafe.1 (Or.inl hsafe.2)
            rw [hsplitX] at h5
            simp only [Option.map_some', List.append_nil] at h5
            rw [extractTokens_some _ p c _ h5, iha]
            simp [List.filter_cons, hk]
          · have hkf : tokenKept m row c = false := by
              revert hk
              cases tokenKept m row c <;> simp
            have hw := substToken_bracesFree m row c hrow hkf
            rw [extractTokens_append_safe (p ++ substToken m row c) _
              (safeSeg_append_bracesFree p _ hsafe.1 hw)
              (Or.inl (getLast?_append_bracesFree p _ hsafe.2 hw)), iha]
            simp [List.filter_cons, hkf]

theorem mem_uniqueFirstAux (x : List Char) :
    ∀ (l seen : List (List Char)),
      x ∈ uniqueFirstAux seen l ↔ (x ∈ l ∧ x ∉ seen) := by
  intro l
  induction l with
  | nil => intro seen; simp [uniqueFirstAux]
  | cons y ys ih =>
      intro seen
      rw [uniqueFirstAux]
      by_cases hy : y ∈ seen
      · rw [if_pos hy, ih seen]
        constructor
        · rintro ⟨hx, hn⟩
          exact ⟨List.mem_cons_of_mem _ hx, hn⟩
        · rintro ⟨hx, hn⟩
          rcases List.mem_cons.mp hx with rfl | hx2
          · exact absurd hy hn
          · exact ⟨hx2, hn⟩
      · rw [if_neg hy]
        constructor
        · intro hx
          rcases List.mem_cons.mp hx with rfl | hx2
          · exact ⟨List.mem_cons_self _ _, hy⟩
          · have hq := (ih (y :: seen)).mp hx2
            exact ⟨List.mem_cons_of_mem _ hq.1,
              fun hn => hq.2 (List.mem_cons_of_mem _ hn)⟩
        · rintro ⟨hx, hn⟩
          rcases List.mem_cons.mp hx with rfl | hx2
          · exact List.mem_cons_self _ _
          · by_cases hxy : x = y
            · subst hxy; exact List.mem_cons_self _ _
            · exact List.mem_cons_of_mem _
                ((ih (y :: seen)).mpr ⟨hx2, by simp [hxy, hn]⟩)

/-- Set semantics of `Array.from(new Set(xs))`: same membership. -/
theorem mem_uniqueFirst (x : List Char) (l : List (List Char)) :
    x ∈ uniqueFirst l ↔ x ∈ l := by
  rw [uniqueFirst, mem_uniqueFirstAux]
  simp

/-- Every extracted token content has the closer-cleanliness properties. -/
theorem extractTokens_mem_props (s c : List Char) (hc : c ∈ extractTokens s) :
    hasPair '}' '}' c = false ∧ c.getLast? ≠ some '}' := by
  suffices H : ∀ (n : Nat) (s : List Char), s.length ≤ n → ∀ c ∈ extractTokens s,
      hasPair '}' '}' c = false ∧ c.getLast? ≠ some '}' from H s.length s le_rfl c hc
  intro n
  induction n with
  | zero =>
      intro s hs c hcm
      have hnil : s = [] := by
        cases s with
        | nil => rfl
        | cons x r => simp at hs
      subst hnil
      simp [extractTokens, extractTokensF] at hcm
  | succ n ih =>
      intro s hs c hcm
      cases hsp : splitFirstToken s with
      | none =>
          rw [extractTokens_none s hsp] at hcm
          simp at hcm
      | some r =>
          obtain ⟨p, c2, a⟩ := r
          have hlen := splitFirstToken_after_length s p c2 a hsp
          rw [extractTokens_some s p c2 a hsp] at hcm
          rcases List.mem_cons.mp hcm with rfl | hcm2
          · exact (splitFirstToken_content_props s p c a hsp).2
          · exact ih a (by omega) c hcm2

/-- Splitting a pair-freeness fact at the head. -/
theorem hasPair_cons_false (a b x : Char) (l : List Char)
    (h : hasPair a b (x :: l) = false) :
    ¬(x = a ∧ l.head? = some b) ∧ hasPair a b l = false := by
  rw [hasPair] at h
  simp only [Bool.or_eq_false_iff, Bool.and_eq_false_iff] at h
  constructor
  · rintro ⟨h1, h2⟩
    rcases h.1 with h3 | h3
    · simp [h1] at h3
    · simp [h2] at h3
  · exact h.2

/-- Stripping braces from a clean content with its closer appended removes
just the closer. -/
theorem stripBraces_closer (c : List Char) (hdb : hasPair '{' '{' c = false)
    (hcb : hasPair '}' '}' c = false) (hlast : c.getLast? ≠ some '}') :
    stripBraces (c ++ ['}', '}']) = c := by
  induction c with
  | nil => rfl
  | cons x cs ih =>
      obtain ⟨hdb1, hdb2⟩ := hasPair_cons_false _ _ _ _ hdb
      obtain ⟨hcb1, hcb2⟩ := hasPair_cons_false _ _ _ _ hcb
      cases hcs : cs with
      | nil =>
          subst hcs
          have hx : x ≠ '}' := by simpa using hlast
          simp [stripBraces, hx]
      | cons y ds =>
          subst hcs
          have hcond : ¬((x = '{' ∧ y = '{') ∨ (x = '}' ∧ y = '}')) := by
            rintro (⟨hx1, hy1⟩ | ⟨hx1, hy1⟩)
            · exact hdb1 ⟨hx1, by simp [hy1]⟩
            · exact hcb1 ⟨hx1, by simp [hy1]⟩
          rw [show (x :: y :: ds) ++ ['}', '}'] = x :: y :: (ds ++ ['}', '}']) from rfl]
          rw [stripBraces, if_neg hcond]
          rw [show y :: (ds ++ ['}', '}']) = (y :: ds) ++ ['}', '}'] from rfl]
          rw [ih hdb2 hcb2 ?_]
          rw [List.getLast?_cons_cons] at hlast
          exact hlast

/-- Under the double-brace-free condition, extraction's key cleanup of a
match equals the trim of its captured content: the stripped braces are
exactly the delimiters. -/
theorem keyOf_eq_trim (c : List Char) (hdb : hasPair '{' '{' c = false)
    (hcb : hasPair '}' '}' c = false) (hlast : c.getLast? ≠ some '}') :
    keyOf c = trim c := by
  unfold keyOf matchString
  rw [show stripBraces ('{' :: '{' :: (c ++ ['}', '}'])) =
      stripBraces (c ++ ['}', '}']) from by rw [stripBraces]; simp]
  rw [stripBraces_closer c hdb hcb hlast]

/-- C2, counterexample to the claim as stated: substituted values are
escaped only for the five markup characters, so a row value containing
`{{B}}` injects a fresh placeholder into the output.  Re-extracting after
substituting it for the mapped-and-present key `A` yields `{B}`, which is
not the claimed subset (the empty set) of the template's key set `{A}`. -/
theorem c2_reextraction_counterexample :
    "B".toList ∈ extractKeys (substituteContent [("A".toList, some "c".toList)]
        [("c".toList, "{{B}}".toList)] "{{A}}".toList) ∧
      "B".toList ∉ extractKeys "{{A}}".toList ∧
      extractKeys (substituteContent [("A".toList, some "c".toList)]
        [("c".toList, "{{B}}".toList)] "{{A}}".toList) = ["B".toList] ∧
      (extractKeys "{{A}}".toList).filter
        (fun k => keptKey [("A".toList, some "c".toList)]
          [("c".toList, "{{B}}".toList)] k) = [] := by
  refine ⟨by decide, by decide, by decide, by decide⟩

/-- C2 as amended: provided no row value contains a brace character and no
placeholder content of the template contains `{{`, substituting a row into
a template text and re-extracting placeholder keys from the result yields
exactly the subset of the template's key set consisting of the keys that
are unmapped (absent, `null`, or the falsy empty string) or whose mapped
column is absent from the row; mapped-and-present keys disappear and the
others persist verbatim. -/
theorem c2_reextraction (m : ColumnMapping) (row : CsvRow) (s : List Char)
    (h1 : rowValuesBraceFree row = true) (h2 : contentsDoubleBraceFree s = true) :
    ∀ (k : List Char),
      k ∈ extractKeys (substituteContent m row s) ↔
        (k ∈ extractKeys s ∧ keptKey m row k = true) := by
  intro k
  unfold extractKeys
  rw [mem_uniqueFirst, mem_uniqueFirst]
  rw [extractTokens_substituteContent m row h1 s]
  constructor
  · intro hk
    obtain ⟨c, hcmem, hck⟩ := List.mem_map.mp hk
    obtain ⟨hcs, hkept⟩ := List.mem_filter.mp hcmem
    have hdb : hasPair '{' '{' c = false := by
      unfold contentsDoubleBraceFree at h2
      have := List.all_eq_true.mp h2 _ hcs
      simpa using this
    obtain ⟨hcb, hlast⟩ := extractTokens_mem_props s c hcs
    have hkey : keyOf c = trim c := keyOf_eq_trim c hdb hcb hlast
    refine ⟨List.mem_map.mpr ⟨c, hcs, hck⟩, ?_⟩
    rw [← hck, hkey]
    exact hkept
  · rintro ⟨hk, hkept⟩
    obtain ⟨c, hcs, hck⟩ := List.mem_map.mp hk
    have hdb : hasPair '{' '{' c = false := by
      unfold contentsDoubleBraceFree at h2
      have := List.all_eq_true.mp h2 _ hcs
      simpa using this
    obtain ⟨hcb, hlast⟩ := extractTokens_mem_props s c hcs
    have hkey : keyOf c = trim c := keyOf_eq_trim c hdb hcb hlast
    apply List.mem_map.mpr
    refine ⟨c, List.mem_filter.mpr ⟨hcs, ?_⟩, hck⟩
    show tokenKept m row c = true
    show keptKey m row (trim c) = true
    rw [← hkey, hck]
    exact hkept

/-- Witness for C2 (amended): template `{{A}} {{B}}`, key `A` mapped to a
present column, key `B` unmapped — after substitution `B` is still
reported and `A` is not. -/
theorem c2_reextraction_witness :
    "B".toList ∈ extractKeys (substituteContent [("A".toList, some "c".toList)]
        [("c".toList, "v".toList)] "{{A}} {{B}}".toList) ∧
      "A".toList ∉ extractKeys (substituteContent [("A".toList, some "c".toList)]
        [("c".toList, "v".toList)] "{{A}} {{B}}".toList) :=
  ⟨(c2_reextraction [("A".toList, some "c".toList)] [("c".toList, "v".toList)]
      "{{A}} {{B}}".toList (by decide) (by decide) "B".toList).mpr (by decide),
    fun hmem => absurd ((c2_reextraction [("A".toList, some "c".toList)]
      [("c".toList, "v".toList)] "{{A}} {{B}}".toList (by decide) (by decide)
      "A".toList).mp hmem).2 (by decide)⟩
